import Mathlib

/-!
# Chain-of-Abstraction (CoA) plan engine: formal model

The repository documents a chain-of-abstraction agent: a language model emits
an "abstract plan" containing bracketed call expressions
`[FUNC name(arg1, arg2, ...) = placeholder]`; the engine parses those
expressions out of the text, builds a dependency graph over the placeholders,
executes the graph with a tool registry, and substitutes computed results back
into the plan text before a final refinement pass.

The repository ships only the documentation notebook
(`docs/docs/examples/agent/coa_agent.ipynb`) with the prompt templates and the
worked example; the pack implementation itself is not part of the sources.
The definitions below are therefore modelled from the specification's
component contracts (Expression Parser, Dependency Graph Builder, Execution
Engine, Plan Rewriter) and checked against the notebook's concrete example:
the plan `... [FUNC add(3, 2) = y1] ... [FUNC multiply(y1, 3) = y2] ...` and
its filled form `... [FUNC add(3, 2) = 5] ... [FUNC multiply(5, 3) = 15] ...`.
-/

deriving instance DecidableEq for Except

namespace CoA

/-- Modelled from the spec: argument literals are integers, booleans or
strings (the spec also lists floats, which no claim exercises and which are
omitted here). A value is also what a tool invocation returns. -/
inductive Value where
  | int (n : Int)
  | bool (b : Bool)
  | str (s : String)
deriving DecidableEq, Repr

/-- Modelled from the spec: "the literal rendering of its result value" used
by the Plan Rewriter when substituting computed results into the text. -/
def Value.render : Value → String
  | .int n => toString n
  | .bool b => if b then "true" else "false"
  | .str s => s

/-- Modelled from the spec: an argument token is either a literal or a
reference to a previously defined placeholder. -/
inductive Arg where
  | lit (v : Value)
  | ref (p : String)
deriving DecidableEq, Repr

/-- Modelled from the spec: one symbolic function invocation found in plan
text (function name, ordered argument tokens, output placeholder). The
source span is carried by the enclosing `Segment`. -/
structure CallExpression where
  function_name : String
  arguments : List Arg
  output_placeholder : String
deriving DecidableEq, Repr

/-- Modelled from the spec: the parse of a plan text is a sequence of
segments — plain text passed through unchanged, inert expressions (bracketed
syntax whose function name is not in the tool set, preserved verbatim), and
recognized call expressions together with their exact source span. -/
inductive Segment where
  | text (s : String)
  | inert (s : String)
  | call (c : CallExpression) (raw : String)
deriving DecidableEq, Repr

/-- The exact source characters a segment occupies in the original text. -/
def segRaw : Segment → List Char
  | .text s => s.data
  | .inert s => s.data
  | .call _ raw => raw.data

def isIdentChar (c : Char) : Bool := c.isAlphanum || c = '_'

/-- Modelled from the spec: scan the characters of the argument region of a
bracketed call, respecting nested parentheses and double-quoted strings,
until the closing parenthesis at nesting depth zero. Returns the argument
characters and the characters after the closing parenthesis. -/
def scanArgs : Nat → Bool → List Char → Option (List Char × List Char)
  | _, _, [] => none
  | depth, inQ, c :: cs =>
    if inQ then
      (fun r => (c :: r.1, r.2)) <$> scanArgs depth (c ≠ '"') cs
    else if c = '"' then
      (fun r => (c :: r.1, r.2)) <$> scanArgs depth true cs
    else if c = '(' then
      (fun r => (c :: r.1, r.2)) <$> scanArgs (depth + 1) false cs
    else if c = ')' then
      if depth = 0 then some ([], cs)
      else (fun r => (c :: r.1, r.2)) <$> scanArgs (depth - 1) false cs
    else
      (fun r => (c :: r.1, r.2)) <$> scanArgs depth false cs

/-- Modelled from the spec's wire syntax: recognize the literal marker
`[FUNC name(args) = placeholder]` at the head of the character stream,
returning the function name, the raw argument characters, the output
placeholder and the remaining characters. Any mismatch means the marker is
malformed at this position. -/
def parseCallShape : List Char → Option (String × List Char × String × List Char)
  | '[' :: 'F' :: 'U' :: 'N' :: 'C' :: ' ' :: r0 =>
    let name := r0.takeWhile isIdentChar
    match r0.dropWhile isIdentChar with
    | '(' :: r2 =>
      match scanArgs 0 false r2 with
      | some (args, r3) =>
        match r3 with
        | ' ' :: '=' :: ' ' :: r4 =>
          let ph := r4.takeWhile isIdentChar
          match r4.dropWhile isIdentChar with
          | ']' :: rest =>
            if name.isEmpty ∨ ph.isEmpty then none
            else some (⟨name⟩, args, ⟨ph⟩, rest)
          | _ => none
        | _ => none
      | none => none
    | _ => none
  | _ => none

/-- The exact characters a recognized marker occupies: the marker grammar is
rigid, so the span can be reconstructed from its parts. -/
def mkRaw (name : String) (args : List Char) (ph : String) : String :=
  "[FUNC " ++ name ++ "(" ++ (⟨args⟩ : String) ++ ") = " ++ ph ++ "]"

/-- Modelled from the spec: split the raw argument characters of one call at
top-level commas, respecting nested parentheses and quoted strings (an
argument may itself be a string containing commas). -/
def splitArgsAux : List Char → Nat → Bool → List Char → List (List Char)
  | [], _, _, cur => [cur.reverse]
  | c :: cs, depth, inQ, cur =>
    if inQ then splitArgsAux cs depth (c ≠ '"') (c :: cur)
    else if c = '"' then splitArgsAux cs depth true (c :: cur)
    else if c = '(' then splitArgsAux cs (depth + 1) false (c :: cur)
    else if c = ')' then splitArgsAux cs (depth - 1) false (c :: cur)
    else if c = ',' ∧ depth = 0 then cur.reverse :: splitArgsAux cs 0 false []
    else splitArgsAux cs depth false (c :: cur)

/-- Strip surrounding whitespace from an argument token. -/
def trimToken (l : List Char) : List Char :=
  ((l.dropWhile Char.isWhitespace).reverse.dropWhile Char.isWhitespace).reverse

/-- Modelled from the spec: the argument region of a call, tokenized into
trimmed argument tokens; an all-whitespace region means zero arguments. -/
def splitArgs (args : List Char) : List (List Char) :=
  if args.all Char.isWhitespace then []
  else (splitArgsAux args 0 false []).map trimToken

/-- A token consisting of decimal digits, possibly with a leading minus. -/
def isIntToken : List Char → Bool
  | [] => false
  | '-' :: rest => !rest.isEmpty && rest.all Char.isDigit
  | l => l.all Char.isDigit

def digitsToNat (l : List Char) : Nat :=
  l.foldl (fun n c => n * 10 + (c.toNat - 48)) 0

/-- Modelled from the spec: a literal token is coerced to the simplest
matching type — integer, boolean, else string (with surrounding double
quotes stripped from quoted strings). -/
def tokenToValue (tok : List Char) : Value :=
  if isIntToken tok then
    match tok with
    | '-' :: rest => .int (-(digitsToNat rest : Int))
    | _ => .int (digitsToNat tok)
  else if tok = "true".data then .bool true
  else if tok = "false".data then .bool false
  else
    match tok with
    | '"' :: rest =>
      if rest.getLast? = some '"' then .str ⟨rest.dropLast⟩ else .str ⟨tok⟩
    | _ => .str ⟨tok⟩

/-- Modelled from the spec: an argument token that exactly matches a
previously-seen placeholder id is classified as a reference; every other
token is a literal. -/
def classifyToken (known : List String) (tok : List Char) : Arg :=
  if (⟨tok⟩ : String) ∈ known then .ref ⟨tok⟩ else .lit (tokenToValue tok)

/-- Modelled from the spec: recognize one call expression at the head of the
stream. A well-formed marker whose function name is in the tool set becomes
a `Segment.call` (its arguments classified against the placeholders seen so
far); a well-formed marker with an unknown function name is flagged and kept
as inert text, excluded from the call list but preserved verbatim. -/
def parseCallAt (names known : List String) (cs : List Char) :
    Option (Segment × List Char) :=
  match parseCallShape cs with
  | none => none
  | some (name, args, ph, rest) =>
    if name ∈ names then
      some (.call ⟨name, (splitArgs args).map (classifyToken known), ph⟩
              (mkRaw name args ph), rest)
    else
      some (.inert (mkRaw name args ph), rest)

/-- Emit accumulated plain-text characters (held in reverse) as a text
segment, if any. -/
def flushText (acc : List Char) (segs : List Segment) : List Segment :=
  if acc.isEmpty then segs else .text ⟨acc.reverse⟩ :: segs

/-- Modelled from the spec: the Expression Parser's main scan. Walks the
text left to right; at each position it tries to recognize a call marker,
otherwise the character is plain text. Malformed markers are skipped and
left as literal text; the parse never aborts. `known` is the growing list of
placeholder ids seen so far, used to classify argument references. The fuel
is initialized to the text length, which always suffices since every step
consumes at least one character. -/
def parseLoop (names : List String) :
    Nat → List String → List Char → List Char → List Segment
  | 0, _, acc, cs => flushText (cs.reverse ++ acc) []
  | fuel + 1, known, acc, cs =>
    match cs with
    | [] => flushText acc []
    | c :: cs' =>
      match parseCallAt names known cs with
      | some (seg, rest) =>
        let known' := match seg with
          | .call c _ => known ++ [c.output_placeholder]
          | _ => known
        flushText acc (seg :: parseLoop names fuel known' [] rest)
      | none => parseLoop names fuel known (c :: acc) cs'

/-- Modelled from the spec: parse a plan text against a set of valid
function names, producing the segment sequence. -/
def parseSegments (names : List String) (s : String) : List Segment :=
  parseLoop names s.data.length [] [] s.data

/-- The ordered call records extracted from the parse. -/
def extractCalls : List Segment → List CallExpression
  | [] => []
  | .call c _ :: rest => c :: extractCalls rest
  | _ :: rest => extractCalls rest

/-- Concatenation of the source spans of a segment sequence. -/
def rawConcat : List Segment → List Char
  | [] => []
  | s :: rest => segRaw s ++ rawConcat rest

/-- The placeholder ids a call's arguments reference (its dependencies). -/
def deps (c : CallExpression) : List String :=
  c.arguments.filterMap fun a => match a with
    | .ref p => some p
    | .lit _ => none

/-- The output placeholders defined by a call list, in textual order. -/
def definedIds (calls : List CallExpression) : List String :=
  calls.map (·.output_placeholder)

/-- Modelled from the spec: graph-construction failures — duplicate
placeholder definition, unknown placeholder reference, dependency cycle
(reported with the placeholders that could not be ordered). -/
inductive GraphError where
  | duplicate (p : String)
  | unknownRef (p : String)
  | cycle (ps : List String)
deriving DecidableEq, Repr

/-- First placeholder id that is defined twice, if any. -/
def findDuplicate : List String → Option String
  | [] => none
  | x :: xs => if x ∈ xs then some x else findDuplicate xs

/-- First referenced placeholder with no defining call in the plan, if any. -/
def findUnknownRef (calls : List CallExpression) : Option String :=
  match calls.filterMap
      (fun c => ((deps c).filter (fun p => !decide (p ∈ definedIds calls))).head?) with
  | [] => none
  | p :: _ => some p

/-- Modelled from the spec: order the nodes so that every node comes after
all of its dependencies, by repeatedly peeling the Ready set (nodes whose
dependencies are all already ordered). If no node is Ready while some
remain, those remaining nodes form the cycle error. The fuel is initialized
to the node count, which always suffices since every round peels at least
one node. -/
def topoSort : Nat → List String → List CallExpression →
    Except GraphError (List CallExpression)
  | _, _, [] => .ok []
  | 0, _, pending => .error (.cycle (definedIds pending))
  | fuel + 1, done, pending =>
    let ready := pending.filter fun c => (deps c).all fun d => decide (d ∈ done)
    let rest := pending.filter fun c => !((deps c).all fun d => decide (d ∈ done))
    if ready.isEmpty then .error (.cycle (definedIds pending))
    else
      match topoSort fuel (done ++ definedIds ready) rest with
      | .error e => .error e
      | .ok tail => .ok (ready ++ tail)

/-- Modelled from the spec: the Dependency Graph Builder. Checks for
duplicate placeholder definitions, then unknown references, then orders the
nodes in dependency order (detecting cycles); any defect is fatal before any
tool is invoked. -/
def buildGraph (calls : List CallExpression) :
    Except GraphError (List CallExpression) :=
  match findDuplicate (definedIds calls) with
  | some p => .error (.duplicate p)
  | none =>
    match findUnknownRef calls with
    | some p => .error (.unknownRef p)
    | none => topoSort calls.length [] calls

/-- Modelled from the spec: a tool registry entry — a name and an invocable
capability taking an ordered argument list and returning a result value or
an error. -/
structure Tool where
  name : String
  run : List Value → Except String Value

def lookupTool : List Tool → String → Option Tool
  | [], _ => none
  | t :: ts, n => if t.name = n then some t else lookupTool ts n

/-- Modelled from the spec: resolve one argument against the current
placeholder→result mapping; a literal is itself, a reference is looked up. -/
def resolveArg (results : List (String × Value)) : Arg → Option Value
  | .lit v => some v
  | .ref p => results.lookup p

/-- Modelled from the spec: one dispatched tool invocation — the node, its
fully substituted arguments, and the placeholder→result mapping (the Done
set) at dispatch time. -/
structure Dispatch where
  node : CallExpression
  resolved_args : List Value
  resultsBefore : List (String × Value)
deriving DecidableEq, Repr

/-- Modelled from the spec: an execution failure report — the failed node's
placeholder, function name and resolved arguments, the tool's message, and
the results already computed for other nodes (retained for diagnostics). -/
structure ExecError where
  placeholder : String
  function_name : String
  arguments : List Value
  message : String
  prior_results : List (String × Value)
deriving DecidableEq, Repr

/-- Modelled from the spec: the Execution Engine's walk over the
dependency-ordered nodes. For each node it substitutes dependency
placeholders with their results, dispatches the named tool, and stores the
result keyed by the output placeholder; a tool failure halts the walk with a
failure report and no further node is dispatched. The returned list records
every dispatched tool invocation in order. -/
def execTrace (tools : List Tool) :
    List CallExpression → List (String × Value) →
    List Dispatch × Except ExecError (List (String × Value))
  | [], results => ([], .ok results)
  | c :: rest, results =>
    match c.arguments.mapM (resolveArg results) with
    | none =>
      ([], .error ⟨c.output_placeholder, c.function_name, [],
        "unresolved dependency", results⟩)
    | some vals =>
      match lookupTool tools c.function_name with
      | none =>
        ([], .error ⟨c.output_placeholder, c.function_name, vals,
          "unknown tool", results⟩)
      | some t =>
        match t.run vals with
        | .error msg =>
          ([⟨c, vals, results⟩],
            .error ⟨c.output_placeholder, c.function_name, vals, msg, results⟩)
        | .ok v =>
          let next := execTrace tools rest (results ++ [(c.output_placeholder, v)])
          (⟨c, vals, results⟩ :: next.1, next.2)

/-- Modelled from the spec: node status in the execution state machine. -/
inductive Status where
  | Pending
  | Ready
  | Running
  | Done
  | Failed
deriving DecidableEq, Repr

/-- Modelled from the spec: the status of each node after a failed run — the
nodes with stored results are Done, the failed node is Failed, every other
node is still Pending. -/
def statusAfterFailure (err : ExecError) (p : String) : Status :=
  if p ∈ err.prior_results.map Prod.fst then .Done
  else if p = err.placeholder then .Failed
  else .Pending

/-- Modelled from the spec: render one argument token for the filled text —
a literal renders as itself, a reference renders as the referenced
dependency's computed result. -/
def renderArgVal (results : List (String × Value)) : Arg → String
  | .lit v => v.render
  | .ref p =>
    match results.lookup p with
    | some v => v.render
    | none => p

def renderArgList (results : List (String × Value)) : List Arg → String
  | [] => ""
  | [a] => renderArgVal results a
  | a :: rest => renderArgVal results a ++ ", " ++ renderArgList results rest

/-- Modelled from the spec and the notebook's refine example: the Plan
Rewriter substitutes computed values into each recognized call expression in
place — argument references and the output placeholder are replaced by the
corresponding results, keeping the bracketed marker, exactly as in the
notebook's filled plan `[FUNC add(3, 2) = 5]` / `[FUNC multiply(5, 3) = 15]`.
Plain and inert text is passed through verbatim. -/
def fillSegment (results : List (String × Value)) : Segment → String
  | .text s => s
  | .inert s => s
  | .call c raw =>
    match results.lookup c.output_placeholder with
    | some v =>
      "[FUNC " ++ c.function_name ++ "(" ++ renderArgList results c.arguments
        ++ ") = " ++ v.render ++ "]"
    | none => raw

def fillConcat (results : List (String × Value)) : List Segment → List Char
  | [] => []
  | s :: rest => (fillSegment results s).data ++ fillConcat results rest

/-- The filled plan text for a parsed segment sequence. -/
def fillText (results : List (String × Value)) (segs : List Segment) : String :=
  ⟨fillConcat results segs⟩

/-- Modelled from the spec: the fatal error taxonomy surfaced to the
Orchestration Shell — graph-construction errors and execution errors. -/
inductive PlanError where
  | graph (e : GraphError)
  | exec (e : ExecError)
deriving DecidableEq, Repr

/-- Modelled from the spec: build and execute the graph for an ordered call
list. A graph-construction error is fatal before any tool is invoked (the
dispatch trace is empty); otherwise the nodes are executed in dependency
order. -/
def execPlan (tools : List Tool) (calls : List CallExpression) :
    List Dispatch × Except PlanError (List (String × Value)) :=
  match buildGraph calls with
  | .error e => ([], .error (.graph e))
  | .ok order =>
    match execTrace tools order [] with
    | (tr, .error e) => (tr, .error (.exec e))
    | (tr, .ok results) => (tr, .ok results)

/-- Modelled from the spec: one full run of the core pipeline — parse the
plan text, build the graph, execute it, and rewrite the text with computed
results. Returns the dispatch trace together with either the filled text and
the result mapping, or the first fatal error. -/
def runPlanTrace (tools : List Tool) (text : String) :
    List Dispatch × Except PlanError (String × List (String × Value)) :=
  let segs := parseSegments (tools.map (·.name)) text
  match execPlan tools (extractCalls segs) with
  | (tr, .error e) => (tr, .error e)
  | (tr, .ok results) => (tr, .ok (fillText results segs, results))

/-- The pipeline's outcome, without the dispatch trace. -/
def runPlan (tools : List Tool) (text : String) :
    Except PlanError (String × List (String × Value)) :=
  (runPlanTrace tools text).2

/-- A dependency-ordered node list: every node's dependencies are among the
already-done ids, which grow as nodes are processed. -/
def DepsChain : List String → List CallExpression → Prop
  | _, [] => True
  | done, c :: rest =>
    (∀ p ∈ deps c, p ∈ done) ∧ DepsChain (done ++ [c.output_placeholder]) rest

/-- A set of placeholders forming a dependency cycle: nonempty, each defined
by a call in the plan whose arguments reference another member of the set
(so none of them can ever become Ready). -/
def CycleSet (calls : List CallExpression) (C : List String) : Prop :=
  C ≠ [] ∧ ∀ p ∈ C, ∃ c ∈ calls, c.output_placeholder = p ∧ ∃ q ∈ deps c, q ∈ C

instance (calls : List CallExpression) (C : List String) :
    Decidable (CycleSet calls C) := by
  unfold CycleSet
  infer_instance

/-- Whether `pat` occurs as a contiguous substring of the character list. -/
def hasPrefixChars : List Char → List Char → Bool
  | [], _ => true
  | _ :: _, [] => false
  | p :: ps, c :: cs => p = c && hasPrefixChars ps cs

def containsSubChars (pat : List Char) : List Char → Bool
  | [] => pat.isEmpty
  | c :: cs => hasPrefixChars pat (c :: cs) || containsSubChars pat cs

/-- The `add(a, b)` tool of the notebook example. -/
def addTool : Tool :=
  ⟨"add", fun args =>
    match args with
    | [.int a, .int b] => .ok (.int (a + b))
    | _ => .error "add expects two integers"⟩

/-- The `multiply(a, b)` tool of the notebook example. -/
def multiplyTool : Tool :=
  ⟨"multiply", fun args =>
    match args with
    | [.int a, .int b] => .ok (.int (a * b))
    | _ => .error "multiply expects two integers"⟩

/-- A tool that always fails, for the failure scenario. -/
def boomTool : Tool :=
  ⟨"boom", fun _ => .error "tool exploded"⟩

def sallyTools : List Tool := [addTool, multiplyTool]

/-- The concrete plan text of the notebook's worked example (abbreviated as
in the claim). -/
def sallyText : String :=
  "Sally has [FUNC add(3, 2) = y1] apples... multiplies by 3, [FUNC multiply(y1, 3) = y2] apples."

/-- The first call of the example plan: `add(3, 2) = y1`. -/
def sallyCall1 : CallExpression := ⟨"add", [.lit (.int 3), .lit (.int 2)], "y1"⟩

/-- The second call of the example plan: `multiply(y1, 3) = y2`. -/
def sallyCall2 : CallExpression := ⟨"multiply", [.ref "y1", .lit (.int 3)], "y2"⟩

/-- The result mapping the example's execution produces. -/
def sallyResults : List (String × Value) := [("y1", .int 5), ("y2", .int 15)]

/-- The filled text the engine actually produces for the example plan,
matching the notebook's refine-prompt example: values are substituted inside
the markers, which are retained. -/
def sallyFilled : String :=
  "Sally has [FUNC add(3, 2) = 5] apples... multiplies by 3, [FUNC multiply(5, 3) = 15] apples."

/-- The filled text the claim expects, with the markers removed entirely. -/
def sallyClaimedFilled : String :=
  "Sally has 5 apples... multiplies by 3, 15 apples."

/-- Tools for the failure scenario. -/
def failTools : List Tool := [addTool, boomTool]

/-- A plan whose middle call always fails. -/
def failText : String :=
  "A [FUNC add(1, 2) = y1] B [FUNC boom(y1) = y2] C [FUNC add(y2, 1) = y3] D"

def failCall1 : CallExpression := ⟨"add", [.lit (.int 1), .lit (.int 2)], "y1"⟩

def failCall2 : CallExpression := ⟨"boom", [.ref "y1"], "y2"⟩

def failCall3 : CallExpression := ⟨"add", [.ref "y2", .lit (.int 1)], "y3"⟩

/-- A cyclic call list: `y2` references `y3` and `y3` references `y2`. -/
def cycCalls : List CallExpression :=
  [⟨"add", [.ref "y3"], "y2"⟩, ⟨"add", [.ref "y2"], "y3"⟩]

/-- A call list with a reference to `y5`, which nothing defines. -/
def unkCalls : List CallExpression :=
  [⟨"add", [.lit (.int 1), .lit (.int 2)], "y1"⟩, ⟨"add", [.ref "y5"], "y2"⟩]

/-- A call list in which two calls define the same placeholder `y1`. -/
def dupCalls : List CallExpression :=
  [⟨"add", [.lit (.int 1), .lit (.int 2)], "y1"⟩,
   ⟨"add", [.lit (.int 3), .lit (.int 4)], "y1"⟩]

/-- A plan containing a call to a function not in the tool set. -/
def inertText : String :=
  "X [FUNC add(1, 2) = y1] Y [FUNC mystery(4) = y9] Z"

/-- A plan text with no call expressions at all. -/
def noCallText : String := "No function calls here."

/-! ## Theorems -/

theorem scanArgs_eq (depth : Nat) (inQ : Bool) (cs a r : List Char)
    (h : scanArgs depth inQ cs = some (a, r)) : a ++ ')' :: r = cs := by
  induction cs generalizing depth inQ a r with
  | nil => simp [scanArgs] at h
  | cons c cs ih =>
    simp only [scanArgs] at h
    split at h
    · cases hs : scanArgs depth (c ≠ '"') cs with
      | none => rw [hs] at h; simp at h
      | some pr =>
        rw [hs] at h
        simp only [Option.map_some] at h
        cases h
        simpa using congrArg (c :: ·) (ih _ _ _ _ hs)
    · split at h
      · cases hs : scanArgs depth true cs with
        | none => rw [hs] at h; simp at h
        | some pr =>
          rw [hs] at h
          simp only [Option.map_some] at h
          cases h
          simpa using congrArg (c :: ·) (ih _ _ _ _ hs)
      · split at h
        · cases hs : scanArgs (depth + 1) false cs with
          | none => rw [hs] at h; simp at h
          | some pr =>
            rw [hs] at h
            simp only [Option.map_some] at h
            cases h
            simpa using congrArg (c :: ·) (ih _ _ _ _ hs)
        · split at h
          · split at h
            · rename_i hc _ _ hcp _
              cases h
              simp [hcp]
            · cases hs : scanArgs (depth - 1) false cs with
              | none => rw [hs] at h; simp at h
              | some pr =>
                rw [hs] at h
                simp only [Option.map_some] at h
                cases h
                simpa using congrArg (c :: ·) (ih _ _ _ _ hs)
          · cases hs : scanArgs depth false cs with
            | none => rw [hs] at h; simp at h
            | some pr =>
              rw [hs] at h
              simp only [Option.map_some] at h
              cases h
              simpa using congrArg (c :: ·) (ih _ _ _ _ hs)

theorem parseCallShape_eq (cs : List Char) (name : String) (args : List Char)
    (ph : String) (rest : List Char)
    (h : parseCallShape cs = some (name, args, ph, rest)) :
    (mkRaw name args ph).data ++ rest = cs := by
  unfold parseCallShape at h
  split at h
  case _ r0 =>
    simp only at h
    split at h
    · rename_i r2 hdrop
      cases hs : scanArgs 0 false r2 with
      | none => rw [hs] at h; exact absurd h (by simp)
      | some pr =>
        rw [hs] at h
        obtain ⟨a3, r3⟩ := pr
        simp only at h
        split at h
        · rename_i r4
          split at h
          · rename_i rest0 hdrop4
            split at h
            · exact absurd h (by simp)
            · simp only [Option.some.injEq, Prod.mk.injEq] at h
              obtain ⟨hname, hargs, hph, hrest⟩ := h
              subst hname hargs hph hrest
              have h0 : r0.takeWhile isIdentChar ++ r0.dropWhile isIdentChar = r0 :=
                List.takeWhile_append_dropWhile isIdentChar r0
              have h2 : a3 ++ ')' :: (' ' :: '=' :: ' ' :: r4) = r2 :=
                scanArgs_eq 0 false r2 a3 _ hs
              have h4 : r4.takeWhile isIdentChar ++ r4.dropWhile isIdentChar = r4 :=
                List.takeWhile_append_dropWhile isIdentChar r4
              simp only [mkRaw, String.data_append]
              rw [hdrop4] at h4
              rw [hdrop] at h0
              set na := List.takeWhile isIdentChar r0 with hna
              set nb := List.takeWhile isIdentChar r4 with hnb
              rw [← h0, ← h2, ← h4]
              simp [List.append_assoc]
          · exact absurd h (by simp)
        · exact absurd h (by simp)
    · exact absurd h (by simp)
  case _ =>
    exact absurd h (by simp)

theorem parseCallShape_rest_lt (cs : List Char) (name : String) (args : List Char)
    (ph : String) (rest : List Char)
    (h : parseCallShape cs = some (name, args, ph, rest)) :
    rest.length < cs.length := by
  have := parseCallShape_eq cs name args ph rest h
  have hlen := congrArg List.length this
  simp only [List.length_append] at hlen
  have hne : (mkRaw name args ph).data.length ≠ 0 := by
    simp only [mkRaw, String.data_append, List.length_append]
    intro hcontra
    simp at hcontra
  omega

theorem parseCallAt_eq (names known : List String) (cs : List Char)
    (seg : Segment) (rest : List Char)
    (h : parseCallAt names known cs = some (seg, rest)) :
    segRaw seg ++ rest = cs := by
  unfold parseCallAt at h
  split at h
  · exact absurd h (by simp)
  · rename_i name args ph rest0 hshape
    split at h <;>
      (simp only [Option.some.injEq, Prod.mk.injEq] at h
       obtain ⟨hseg, hrest⟩ := h
       subst hseg hrest
       exact parseCallShape_eq cs name args ph _ hshape)

theorem parseCallAt_rest_lt (names known : List String) (cs : List Char)
    (seg : Segment) (rest : List Char)
    (h : parseCallAt names known cs = some (seg, rest)) :
    rest.length < cs.length := by
  unfold parseCallAt at h
  split at h
  · exact absurd h (by simp)
  · rename_i name args ph rest0 hshape
    split at h <;>
      (simp only [Option.some.injEq, Prod.mk.injEq] at h
       obtain ⟨hseg, hrest⟩ := h
       subst hrest
       exact parseCallShape_rest_lt cs name args ph _ hshape)

theorem rawConcat_flushText (acc : List Char) (segs : List Segment) :
    rawConcat (flushText acc segs) = acc.reverse ++ rawConcat segs := by
  unfold flushText
  split
  · rename_i hacc
    simp only [List.isEmpty_iff] at hacc
    subst hacc
    simp
  · simp [rawConcat, segRaw]

/-- The parse is a decomposition of the input: concatenating the source
spans of all segments gives back exactly the original characters. -/
theorem rawConcat_parseLoop (names : List String) (fuel : Nat)
    (known : List String) (acc cs : List Char) :
    rawConcat (parseLoop names fuel known acc cs) = acc.reverse ++ cs := by
  induction fuel generalizing known acc cs with
  | zero => simp [parseLoop, rawConcat_flushText, rawConcat]
  | succ fuel ih =>
    unfold parseLoop
    match cs with
    | [] => simp [rawConcat_flushText, rawConcat]
    | c :: cs' =>
      simp only
      match hat : parseCallAt names known (c :: cs') with
      | some (seg, rest) =>
        simp only [rawConcat_flushText, rawConcat, ih]
        have := parseCallAt_eq names known (c :: cs') seg rest hat
        simp only [List.reverse_nil, List.nil_append, List.append_assoc] at this ⊢
        rw [this]
      | none =>
        simp only [ih]
        simp

theorem rawConcat_parseSegments (names : List String) (s : String) :
    rawConcat (parseSegments names s) = s.data := by
  simp [parseSegments, rawConcat_parseLoop]

theorem findDuplicate_eq_none_iff (l : List String) :
    findDuplicate l = none ↔ l.Nodup := by
  induction l with
  | nil => simp [findDuplicate]
  | cons x xs ih =>
    simp only [findDuplicate]
    split
    · rename_i hx
      simp only [List.nodup_cons]
      constructor
      · intro h; exact absurd h (by simp)
      · intro h; exact absurd hx h.1
    · rename_i hx
      simp [List.nodup_cons, hx, ih]

theorem findDuplicate_some_mem (l : List String) (p : String)
    (h : findDuplicate l = some p) : ∃ pre post, l = pre ++ p :: post ∧ p ∈ post := by
  induction l with
  | nil => simp [findDuplicate] at h
  | cons x xs ih =>
    simp only [findDuplicate] at h
    split at h
    · rename_i hx
      simp only [Option.some.injEq] at h
      subst h
      exact ⟨[], xs, rfl, hx⟩
    · obtain ⟨pre, post, heq, hmem⟩ := ih h
      exact ⟨x :: pre, post, by simp [heq], hmem⟩

theorem findUnknownRef_eq_none_iff (calls : List CallExpression) :
    findUnknownRef calls = none ↔
      ∀ c ∈ calls, ∀ p ∈ deps c, p ∈ definedIds calls := by
  unfold findUnknownRef
  constructor
  · intro h c hc p hp
    split at h
    · rename_i hfm
      by_contra hnot
      have : ((deps c).filter (fun q => !decide (q ∈ definedIds calls))).head? ≠ none := by
        intro hnone
        rw [List.head?_eq_none_iff] at hnone
        have : p ∈ (deps c).filter (fun q => !decide (q ∈ definedIds calls)) := by
          simp [List.mem_filter, hp, hnot]
        rw [hnone] at this
        simp at this
      have hmem : ∀ x ∈ calls,
          ((deps x).filter (fun q => !decide (q ∈ definedIds calls))).head? = none := by
        intro x hx
        by_contra hne
        cases hh : ((deps x).filter (fun q => !decide (q ∈ definedIds calls))).head? with
        | none => exact hne hh
        | some q =>
          have : q ∈ calls.filterMap
              (fun c => ((deps c).filter (fun p => !decide (p ∈ definedIds calls))).head?) := by
            exact List.mem_filterMap.mpr ⟨x, hx, hh⟩
          rw [hfm] at this
          simp at this
      exact this (hmem c hc)
    · exact absurd h (by simp)
  · intro h
    have hempty : calls.filterMap
        (fun c => ((deps c).filter (fun p => !decide (p ∈ definedIds calls))).head?) = [] := by
      rw [List.filterMap_eq_nil_iff]
      intro c hc
      rw [List.head?_eq_none_iff, List.filter_eq_nil_iff]
      intro p hp
      simp [h c hc p hp]
    rw [hempty]

theorem findUnknownRef_some (calls : List CallExpression) (p : String)
    (h : findUnknownRef calls = some p) :
    p ∉ definedIds calls ∧ ∃ c ∈ calls, p ∈ deps c := by
  unfold findUnknownRef at h
  split at h
  · exact absurd h (by simp)
  · rename_i q rest hfm
    simp only [Option.some.injEq] at h
    subst h
    have hq : q ∈ calls.filterMap
        (fun c => ((deps c).filter (fun r => !decide (r ∈ definedIds calls))).head?) := by
      rw [hfm]; simp
    obtain ⟨c, hc, hhead⟩ := List.mem_filterMap.mp hq
    have hp : q ∈ (deps c).filter (fun r => !decide (r ∈ definedIds calls)) :=
      List.mem_of_mem_head? hhead
    rw [List.mem_filter] at hp
    refine ⟨by simpa using hp.2, c, hc, hp.1⟩

theorem depsChain_batch (done : List String) (ready tail : List CallExpression)
    (hready : ∀ c ∈ ready, ∀ p ∈ deps c, p ∈ done)
    (htail : DepsChain (done ++ definedIds ready) tail) :
    DepsChain done (ready ++ tail) := by
  induction ready generalizing done with
  | nil => simpa [definedIds] using htail
  | cons c cs ih =>
    refine ⟨fun p hp => hready c (by simp) p hp, ?_⟩
    exact ih (done ++ [c.output_placeholder])
      (fun c' hc' p hp => List.mem_append_left _ (hready c' (by simp [hc']) p hp))
      (by simpa [definedIds, List.append_assoc] using htail)

theorem topoSort_chain (fuel : Nat) (done : List String)
    (pending order : List CallExpression)
    (h : topoSort fuel done pending = .ok order) : DepsChain done order := by
  induction fuel generalizing done pending order with
  | zero =>
    cases pending with
    | nil => simp only [topoSort, Except.ok.injEq] at h; subst h; trivial
    | cons c cs => simp [topoSort] at h
  | succ fuel ih =>
    cases pending with
    | nil => simp only [topoSort, Except.ok.injEq] at h; subst h; trivial
    | cons c cs =>
      simp only [topoSort] at h
      split at h
      · exact absurd h (by simp)
      · split at h
        · exact absurd h (by simp)
        · rename_i tail hrec
          simp only [Except.ok.injEq] at h
          subst h
          refine depsChain_batch done _ tail ?_ (ih _ _ _ hrec)
          intro c' hc' p hp
          have := (List.mem_filter.mp hc').2
          rw [List.all_eq_true] at this
          simpa using this p hp

theorem topoSort_perm (fuel : Nat) (done : List String)
    (pending order : List CallExpression)
    (h : topoSort fuel done pending = .ok order) : List.Perm order pending := by
  induction fuel generalizing done pending order with
  | zero =>
    cases pending with
    | nil => simp only [topoSort, Except.ok.injEq] at h; subst h; rfl
    | cons c cs => simp [topoSort] at h
  | succ fuel ih =>
    cases pending with
    | nil => simp only [topoSort, Except.ok.injEq] at h; subst h; rfl
    | cons c cs =>
      simp only [topoSort] at h
      split at h
      · exact absurd h (by simp)
      · split at h
        · exact absurd h (by simp)
        · rename_i tail hrec
          simp only [Except.ok.injEq] at h
          subst h
          have hperm := List.filter_append_perm
            (fun c => (deps c).all fun d => decide (d ∈ done)) (c :: cs)
          exact ((ih _ _ _ hrec).append_left _).trans hperm

theorem topoSort_stuck (fuel : Nat) (done : List String)
    (pending : List CallExpression) (C : List String)
    (hC : C ≠ [])
    (hdef : ∀ p ∈ C, ∃ c ∈ pending, c.output_placeholder = p ∧ ∃ q ∈ deps c, q ∈ C)
    (hdone : ∀ p ∈ C, p ∉ done)
    (hnodup : (definedIds pending).Nodup) :
    ∃ names, topoSort fuel done pending = .error (.cycle names) ∧
      ∀ p ∈ C, p ∈ names := by
  have hpendne : pending ≠ [] := by
    intro hnil
    obtain ⟨p, hp⟩ := List.exists_mem_of_ne_nil C hC
    obtain ⟨c, hc, _⟩ := hdef p hp
    rw [hnil] at hc
    simp at hc
  have hmemdef : ∀ p ∈ C, p ∈ definedIds pending := by
    intro p hp
    obtain ⟨c, hc, hout, _⟩ := hdef p hp
    exact List.mem_map.mpr ⟨c, hc, hout⟩
  induction fuel generalizing done pending with
  | zero =>
    cases pending with
    | nil => exact absurd rfl hpendne
    | cons c cs => exact ⟨definedIds (c :: cs), by simp [topoSort], hmemdef⟩
  | succ fuel ih =>
    cases pending with
    | nil => exact absurd rfl hpendne
    | cons c cs =>
      have hrest : ∀ p ∈ C, ∃ c' ∈ (c :: cs).filter
          (fun x => !((deps x).all fun d => decide (d ∈ done))),
          c'.output_placeholder = p ∧ ∃ q ∈ deps c', q ∈ C := by
        intro p hp
        obtain ⟨c', hc', hout, q, hq, hqC⟩ := hdef p hp
        refine ⟨c', List.mem_filter.mpr ⟨hc', ?_⟩, hout, q, hq, hqC⟩
        simp only [Bool.not_eq_eq_eq_not, Bool.not_true, List.all_eq_false]
        exact ⟨q, hq, by simpa using hdone q hqC⟩
      simp only [topoSort]
      split
      · exact ⟨definedIds (c :: cs), rfl, hmemdef⟩
      · rename_i hne
        have hperm : List.Perm
            (definedIds ((c :: cs).filter (fun x => (deps x).all fun d => decide (d ∈ done)) ++
              (c :: cs).filter (fun x => !((deps x).all fun d => decide (d ∈ done)))))
            (definedIds (c :: cs)) := by
          unfold definedIds
          exact (List.filter_append_perm _ (c :: cs)).map (·.output_placeholder)
        have hnodup2 : (definedIds ((c :: cs).filter
              (fun x => (deps x).all fun d => decide (d ∈ done)) ++
            (c :: cs).filter (fun x => !((deps x).all fun d => decide (d ∈ done))))).Nodup :=
          hperm.nodup_iff.mpr hnodup
        rw [definedIds, List.map_append, List.nodup_append] at hnodup2
        obtain ⟨hnr, hnrest, hdisj⟩ := hnodup2
        have hdone' : ∀ p ∈ C, p ∉ done ++ definedIds
            ((c :: cs).filter (fun x => (deps x).all fun d => decide (d ∈ done))) := by
          intro p hp hmem
          rw [List.mem_append] at hmem
          rcases hmem with hmem | hmem
          · exact hdone p hp hmem
          · obtain ⟨c', hc', hout, q, hq, hqC⟩ := hrest p hp
            have hp2 : p ∈ ((c :: cs).filter
                (fun x => !((deps x).all fun d => decide (d ∈ done)))).map
                  (·.output_placeholder) :=
              List.mem_map.mpr ⟨c', hc', hout⟩
            exact hdisj hmem hp2
        obtain ⟨names, hns, hmem2⟩ := ih
          (done ++ definedIds ((c :: cs).filter (fun x => (deps x).all fun d => decide (d ∈ done))))
          ((c :: cs).filter (fun x => !((deps x).all fun d => decide (d ∈ done))))
          hrest hdone' hnrest
          (by
            intro hnil
            obtain ⟨p, hp⟩ := List.exists_mem_of_ne_nil C hC
            obtain ⟨c', hc', _⟩ := hrest p hp
            rw [hnil] at hc'
            simp at hc')
          (by
            intro p hp
            obtain ⟨c', hc', hout, _⟩ := hrest p hp
            exact List.mem_map.mpr ⟨c', hc', hout⟩)
        exact ⟨names, by rw [hns], hmem2⟩

theorem buildGraph_ok (calls order : List CallExpression)
    (h : buildGraph calls = .ok order) :
    (definedIds calls).Nodup ∧ List.Perm order calls ∧ DepsChain [] order ∧
      (∀ c ∈ calls, ∀ p ∈ deps c, p ∈ definedIds calls) := by
  unfold buildGraph at h
  split at h
  · exact absurd h (by simp)
  · rename_i hdup
    split at h
    · exact absurd h (by simp)
    · rename_i hunk
      exact ⟨(findDuplicate_eq_none_iff _).mp hdup,
        topoSort_perm _ _ _ _ h, topoSort_chain _ _ _ _ h,
        (findUnknownRef_eq_none_iff _).mp hunk⟩

theorem buildGraph_duplicate (calls : List CallExpression)
    (h : ¬(definedIds calls).Nodup) :
    ∃ p pre post, buildGraph calls = .error (.duplicate p) ∧
      definedIds calls = pre ++ p :: post ∧ p ∈ post := by
  cases hd : findDuplicate (definedIds calls) with
  | none => exact absurd ((findDuplicate_eq_none_iff _).mp hd) h
  | some p =>
    obtain ⟨pre, post, heq, hmem⟩ := findDuplicate_some_mem _ _ hd
    exact ⟨p, pre, post, by simp [buildGraph, hd], heq, hmem⟩

theorem buildGraph_unknownRef (calls : List CallExpression)
    (hnodup : (definedIds calls).Nodup)
    (h : ∃ c ∈ calls, ∃ p ∈ deps c, p ∉ definedIds calls) :
    ∃ q, buildGraph calls = .error (.unknownRef q) ∧
      q ∉ definedIds calls ∧ ∃ c ∈ calls, q ∈ deps c := by
  cases hu : findUnknownRef calls with
  | none =>
    obtain ⟨c, hc, p, hp, hnd⟩ := h
    exact absurd ((findUnknownRef_eq_none_iff _).mp hu c hc p hp) hnd
  | some q =>
    obtain ⟨hnd, hc⟩ := findUnknownRef_some _ _ hu
    refine ⟨q, ?_, hnd, hc⟩
    simp [buildGraph, (findDuplicate_eq_none_iff _).mpr hnodup, hu]

theorem buildGraph_cycle (calls : List CallExpression) (C : List String)
    (hnodup : (definedIds calls).Nodup)
    (hrefs : ∀ c ∈ calls, ∀ p ∈ deps c, p ∈ definedIds calls)
    (hcyc : CycleSet calls C) :
    ∃ names, buildGraph calls = .error (.cycle names) ∧ ∀ p ∈ C, p ∈ names := by
  obtain ⟨names, hts, hmem⟩ := topoSort_stuck calls.length [] calls C hcyc.1 hcyc.2
    (by simp) hnodup
  refine ⟨names, ?_, hmem⟩
  simp [buildGraph, (findDuplicate_eq_none_iff _).mpr hnodup,
    (findUnknownRef_eq_none_iff _).mpr hrefs, hts]

theorem lookup_of_mem_keys (k : String) (l : List (String × Value))
    (h : k ∈ l.map Prod.fst) : ∃ v, l.lookup k = some v := by
  induction l with
  | nil => simp at h
  | cons a t ih =>
    simp only [List.lookup]
    by_cases hk : k = a.1
    · exact ⟨a.2, by simp [hk]⟩
    · have hk' : (k == a.1) = false := by simpa using hk
      rw [hk']
      simp only [List.map_cons, List.mem_cons] at h
      exact ih (h.resolve_left hk)

theorem mem_deps_iff (c : CallExpression) (p : String) :
    p ∈ deps c ↔ Arg.ref p ∈ c.arguments := by
  unfold deps
  rw [List.mem_filterMap]
  constructor
  · rintro ⟨a, ha, hp⟩
    cases a with
    | lit v => simp at hp
    | ref q => simp only [Option.some.injEq] at hp; subst hp; exact ha
  · intro h
    exact ⟨.ref p, h, rfl⟩

theorem mapM_resolveArg_isSome (args : List Arg) (results : List (String × Value))
    (h : ∀ p, Arg.ref p ∈ args → p ∈ results.map Prod.fst) :
    ∃ vals, args.mapM (resolveArg results) = some vals := by
  induction args with
  | nil => exact ⟨[], rfl⟩
  | cons a t ih =>
    obtain ⟨vals, hvals⟩ := ih (fun p hp => h p (by simp [hp]))
    have ha : ∃ v, resolveArg results a = some v := by
      cases a with
      | lit v => exact ⟨v, rfl⟩
      | ref p => exact lookup_of_mem_keys p results (h p (by simp))
    obtain ⟨v, hv⟩ := ha
    exact ⟨v :: vals, by rw [List.mapM_cons, hv, hvals]; rfl⟩

theorem execTrace_ok_keys (tools : List Tool) (l : List CallExpression)
    (acc res : List (String × Value))
    (h : (execTrace tools l acc).2 = .ok res) :
    res.map Prod.fst = acc.map Prod.fst ++ definedIds l := by
  induction l generalizing acc with
  | nil =>
    simp only [execTrace] at h
    cases h
    simp [definedIds]
  | cons c rest ih =>
    simp only [execTrace] at h
    split at h
    · exact absurd h (by simp)
    · split at h
      · exact absurd h (by simp)
      · split at h
        · exact absurd h (by simp)
        · rename_i vals _ t _ v _
          have := ih (acc ++ [(c.output_placeholder, v)]) (by simpa using h)
          simpa [definedIds, List.append_assoc] using this

theorem execTrace_dispatch_inv (tools : List Tool) (l : List CallExpression)
    (acc : List (String × Value))
    (hchain : DepsChain (acc.map Prod.fst) l) :
    ∀ d ∈ (execTrace tools l acc).1,
      (∀ p ∈ deps d.node, p ∈ d.resultsBefore.map Prod.fst) ∧
      d.node.arguments.mapM (resolveArg d.resultsBefore) = some d.resolved_args := by
  induction l generalizing acc with
  | nil => intro d hd; simp [execTrace] at hd
  | cons c rest ih =>
    intro d hd
    obtain ⟨hdeps, hchain'⟩ := hchain
    simp only [execTrace] at hd
    split at hd
    · simp at hd
    · rename_i vals hvals
      split at hd
      · simp at hd
      · rename_i t ht
        split at hd
        · rename_i msg hrun
          simp only [List.mem_singleton] at hd
          subst hd
          exact ⟨hdeps, hvals⟩
        · rename_i v hrun
          simp only [List.mem_cons] at hd
          rcases hd with hd | hd
          · subst hd
            exact ⟨hdeps, hvals⟩
          · refine ih (acc ++ [(c.output_placeholder, v)]) ?_ d hd
            simpa using hchain'

theorem execTrace_ok_nodes (tools : List Tool) (l : List CallExpression)
    (acc res : List (String × Value))
    (h : (execTrace tools l acc).2 = .ok res) :
    (execTrace tools l acc).1.map (·.node) = l := by
  induction l generalizing acc with
  | nil => simp [execTrace]
  | cons c rest ih =>
    simp only [execTrace] at h ⊢
    split at h
    · exact absurd h (by simp)
    · rename_i vals hvals
      split at h
      · exact absurd h (by simp)
      · rename_i t ht
        split at h
        · exact absurd h (by simp)
        · rename_i v hrun
          simp only [List.map_cons, List.cons.injEq, true_and]
          exact ih (acc ++ [(c.output_placeholder, v)]) (by simpa using h)

theorem execTrace_append (tools : List Tool) (pre post : List CallExpression)
    (acc res : List (String × Value))
    (h : (execTrace tools pre acc).2 = .ok res) :
    execTrace tools (pre ++ post) acc =
      ((execTrace tools pre acc).1 ++ (execTrace tools post res).1,
        (execTrace tools post res).2) := by
  induction pre generalizing acc with
  | nil =>
    simp only [execTrace] at h
    cases h
    simp [execTrace]
  | cons c rest ih =>
    simp only [execTrace] at h ⊢
    split at h
    · exact absurd h (by simp)
    · rename_i vals hvals
      split at h
      · exact absurd h (by simp)
      · rename_i t ht
        split at h
        · exact absurd h (by simp)
        · rename_i v hrun
          have hrw : rest.append post = rest ++ post := rfl
          rw [hrw, ih (acc ++ [(c.output_placeholder, v)]) (by simpa using h)]
          simp

theorem fillConcat_append (m : List (String × Value)) (a b : List Segment) :
    fillConcat m (a ++ b) = fillConcat m a ++ fillConcat m b := by
  induction a with
  | nil => simp [fillConcat]
  | cons s rest ih => simp [fillConcat, ih]

theorem fillConcat_no_call (m : List (String × Value)) (segs : List Segment)
    (h : ∀ c raw, Segment.call c raw ∉ segs) :
    fillConcat m segs = rawConcat segs := by
  induction segs with
  | nil => rfl
  | cons s rest ih =>
    have hrest : ∀ c raw, Segment.call c raw ∉ rest := by
      intro c raw hmem
      exact h c raw (by simp [hmem])
    rw [fillConcat, rawConcat, ih hrest]
    cases s with
    | text t => rfl
    | inert t => rfl
    | call c raw => exact absurd (by simp : Segment.call c raw ∈ _) (h c raw)

theorem extractCalls_eq_nil_iff (segs : List Segment) :
    extractCalls segs = [] ↔ ∀ c raw, Segment.call c raw ∉ segs := by
  induction segs with
  | nil => simp [extractCalls]
  | cons s rest ih =>
    cases s with
    | text t =>
      simp only [extractCalls, ih]
      constructor
      · intro h c raw hmem
        rcases List.mem_cons.mp hmem with hmem | hmem
        · exact absurd hmem (by simp)
        · exact h c raw hmem
      · intro h c raw hmem
        exact h c raw (by simp [hmem])
    | inert t =>
      simp only [extractCalls, ih]
      constructor
      · intro h c raw hmem
        rcases List.mem_cons.mp hmem with hmem | hmem
        · exact absurd hmem (by simp)
        · exact h c raw hmem
      · intro h c raw hmem
        exact h c raw (by simp [hmem])
    | call c raw =>
      simp only [extractCalls]
      constructor
      · intro h
        exact absurd h (by simp)
      · intro h
        exact absurd (by simp : Segment.call c raw ∈ _) (h c raw)

theorem mem_segs_of_mem_extractCalls (segs : List Segment) (c : CallExpression)
    (h : c ∈ extractCalls segs) : ∃ raw, Segment.call c raw ∈ segs := by
  induction segs with
  | nil => simp [extractCalls] at h
  | cons s rest ih =>
    cases s with
    | text t =>
      obtain ⟨raw, hraw⟩ := ih (by simpa [extractCalls] using h)
      exact ⟨raw, by simp [hraw]⟩
    | inert t =>
      obtain ⟨raw, hraw⟩ := ih (by simpa [extractCalls] using h)
      exact ⟨raw, by simp [hraw]⟩
    | call c' raw' =>
      simp only [extractCalls, List.mem_cons] at h
      rcases h with h | h
      · subst h
        exact ⟨raw', by simp⟩
      · obtain ⟨raw, hraw⟩ := ih h
        exact ⟨raw, by simp [hraw]⟩

theorem mem_extractCalls_of_mem_segs (segs : List Segment) (c : CallExpression)
    (raw : String) (h : Segment.call c raw ∈ segs) : c ∈ extractCalls segs := by
  induction segs with
  | nil => simp at h
  | cons s rest ih =>
    rcases List.mem_cons.mp h with heq | hmem
    · subst heq
      simp [extractCalls]
    · cases s with
      | text t => simpa [extractCalls] using ih hmem
      | inert t => simpa [extractCalls] using ih hmem
      | call c' raw' => simp [extractCalls, ih hmem]

/-- Inversion of a successful graph execution: it comes from a successfully
built order whose execution succeeded. -/
theorem execPlan_ok_inv (tools : List Tool) (calls : List CallExpression)
    (tr : List Dispatch) (results : List (String × Value))
    (h : execPlan tools calls = (tr, .ok results)) :
    ∃ order, buildGraph calls = .ok order ∧
      execTrace tools order [] = (tr, .ok results) := by
  unfold execPlan at h
  split at h
  · simp only [Prod.mk.injEq] at h
    exact absurd h.2 (by simp)
  · rename_i order horder
    split at h
    · rename_i tr' e hpr
      simp only [Prod.mk.injEq] at h
      exact absurd h.2 (by simp)
    · rename_i tr' res hpr
      simp only [Prod.mk.injEq, Except.ok.injEq] at h
      obtain ⟨htr, hres⟩ := h
      subst htr hres
      exact ⟨order, horder, hpr⟩

/-- Inversion of a successful run: a successful pipeline outcome comes from a
successfully built order and a successful execution, and the output text is
the rewrite of the parsed segments with the result mapping. -/
theorem runPlan_ok_inv (tools : List Tool) (text filled : String)
    (results : List (String × Value))
    (h : runPlan tools text = .ok (filled, results)) :
    ∃ order,
      buildGraph (extractCalls (parseSegments (tools.map (·.name)) text)) = .ok order ∧
      (execTrace tools order []).2 = .ok results ∧
      filled = fillText results (parseSegments (tools.map (·.name)) text) := by
  unfold runPlan runPlanTrace at h
  simp only at h
  split at h
  · rename_i tr e hep
    exact absurd h (by simp)
  · rename_i tr res hep
    simp only [Except.ok.injEq, Prod.mk.injEq] at h
    obtain ⟨hfill, hres⟩ := h
    subst hres
    obtain ⟨order, hbuild, hexec⟩ := execPlan_ok_inv tools _ tr res hep
    exact ⟨order, hbuild, by rw [hexec], hfill.symm⟩

/-- In a successful run, every placeholder defined by some recognized call,
and every placeholder referenced by one, has a value in the result map. -/
theorem runPlan_ok_lookup (tools : List Tool) (text filled : String)
    (results : List (String × Value))
    (h : runPlan tools text = .ok (filled, results)) :
    ∀ c ∈ extractCalls (parseSegments (tools.map (·.name)) text),
      (∃ v, results.lookup c.output_placeholder = some v) ∧
      ∀ p ∈ deps c, ∃ v, results.lookup p = some v := by
  obtain ⟨order, hbuild, hexec, hfill⟩ := runPlan_ok_inv tools text filled results h
  obtain ⟨hnodup, hperm, hchain, hrefs⟩ := buildGraph_ok _ order hbuild
  have hkeys := execTrace_ok_keys tools order [] results hexec
  simp only [List.map_nil, List.nil_append] at hkeys
  have hkeymem : ∀ p, p ∈ definedIds (extractCalls (parseSegments (tools.map (·.name)) text)) →
      p ∈ results.map Prod.fst := by
    intro p hp
    rw [hkeys]
    exact ((hperm.map (·.output_placeholder)).mem_iff).mpr hp
  intro c hc
  constructor
  · exact lookup_of_mem_keys _ _ (hkeymem _ (List.mem_map.mpr ⟨c, hc, rfl⟩))
  · intro p hp
    exact lookup_of_mem_keys _ _ (hkeymem _ (hrefs c hc p hp))

theorem extractCalls_append (a b : List Segment) :
    extractCalls (a ++ b) = extractCalls a ++ extractCalls b := by
  induction a with
  | nil => simp [extractCalls]
  | cons s rest ih =>
    cases s with
    | text t => simpa [extractCalls] using ih
    | inert t => simpa [extractCalls] using ih
    | call c raw => simp [extractCalls, ih]

theorem fillText_decomp (m : List (String × Value)) (pre post : List Segment)
    (s : Segment) :
    fillText m (pre ++ s :: post) =
      fillText m pre ++ fillSegment m s ++ fillText m post := by
  have hdata : (fillText m pre ++ fillSegment m s ++ fillText m post).data =
      fillConcat m pre ++ ((fillSegment m s).data ++ fillConcat m post) := by
    simp [fillText, String.data_append, List.append_assoc]
  have : fillConcat m (pre ++ s :: post) =
      fillConcat m pre ++ ((fillSegment m s).data ++ fillConcat m post) := by
    rw [fillConcat_append]
    rfl
  unfold fillText
  rw [this, ← hdata]
  rfl

theorem execTrace_error_keys (tools : List Tool) (l : List CallExpression)
    (acc : List (String × Value)) (err : ExecError)
    (h : (execTrace tools l acc).2 = .error err) :
    ∃ pre post, l = pre ++ post ∧
      err.prior_results.map Prod.fst = acc.map Prod.fst ++ definedIds pre := by
  induction l generalizing acc with
  | nil => simp [execTrace] at h
  | cons c rest ih =>
    simp only [execTrace] at h
    split at h
    · cases h
      exact ⟨[], c :: rest, rfl, by simp [definedIds]⟩
    · split at h
      · cases h
        exact ⟨[], c :: rest, rfl, by simp [definedIds]⟩
      · split at h
        · cases h
          exact ⟨[], c :: rest, rfl, by simp [definedIds]⟩
        · rename_i v hrun
          obtain ⟨pre, post, heq, hkeys⟩ := ih (acc ++ [(c.output_placeholder, v)])
            (by simpa using h)
          exact ⟨c :: pre, post, by simp [heq],
            by simpa [definedIds, List.append_assoc] using hkeys⟩

/-- In a fully successful run, each recognized call expression contributes,
at its position in the filled text, the bracketed marker with all values
substituted: the arguments rendered against the result map and the output
placeholder replaced by the call's computed result. -/
theorem runPlan_ok_call_subst (tools : List Tool) (text filled : String)
    (results : List (String × Value)) (c : CallExpression) (raw : String)
    (h : runPlan tools text = .ok (filled, results))
    (hmem : Segment.call c raw ∈ parseSegments (tools.map (·.name)) text) :
    ∃ v preS postS, results.lookup c.output_placeholder = some v ∧
      filled = preS ++ ("[FUNC " ++ c.function_name ++ "("
        ++ renderArgList results c.arguments ++ ") = " ++ v.render ++ "]") ++ postS ∧
      ∀ p ∈ deps c, ∃ w, results.lookup p = some w ∧
        renderArgVal results (.ref p) = w.render := by
  obtain ⟨order, hbuild, hexec, hfill⟩ := runPlan_ok_inv tools text filled results h
  have hlk := runPlan_ok_lookup tools text filled results h c
    (mem_extractCalls_of_mem_segs _ c raw hmem)
  obtain ⟨⟨v, hv⟩, hdeps⟩ := hlk
  obtain ⟨pre, post, hsplit⟩ := List.append_of_mem hmem
  refine ⟨v, fillText results pre, fillText results post, hv, ?_, ?_⟩
  · rw [hfill, hsplit, fillText_decomp]
    have : fillSegment results (Segment.call c raw) =
        "[FUNC " ++ c.function_name ++ "(" ++ renderArgList results c.arguments
          ++ ") = " ++ v.render ++ "]" := by
      simp only [fillSegment]
      rw [hv]
    rw [this]
  · intro p hp
    obtain ⟨w, hw⟩ := hdeps p hp
    exact ⟨w, hw, by simp only [renderArgVal]; rw [hw]⟩

/-- Small step lemma: a graph-construction error aborts the run with an
empty dispatch trace. -/
theorem execPlan_graph_error (tools : List Tool) (calls : List CallExpression)
    (e : GraphError) (h : buildGraph calls = .error e) :
    execPlan tools calls = ([], .error (.graph e)) := by
  simp [execPlan, h]

/-- C1, counterexample: the claim says a fully successful run leaves no
`[FUNC ...]` marker in the output text. On the notebook's own example the
run succeeds for every call, yet the filled text still contains the marker
string `[FUNC`, exactly as the notebook's refine-prompt example shows. -/
theorem coa_C1_counterexample :
    runPlan sallyTools sallyText = .ok (sallyFilled, sallyResults) ∧
    containsSubChars "[FUNC".data sallyFilled.data = true := by
  constructor
  · decide
  · decide

/-- C1, amended: for every plan in which every call expression executes
successfully, each recognized call expression's bracketed form is rewritten
in place — the output placeholder is replaced by the literal rendering of
its result — but the `[FUNC name(...) = result]` marker itself is retained
in the output text, not removed. -/
theorem coa_C1_markers_retained (tools : List Tool) (text filled : String)
    (results : List (String × Value)) (c : CallExpression) (raw : String)
    (h : runPlan tools text = .ok (filled, results))
    (hmem : Segment.call c raw ∈ parseSegments (tools.map (·.name)) text) :
    ∃ v preS postS, results.lookup c.output_placeholder = some v ∧
      filled = preS ++ ("[FUNC " ++ c.function_name ++ "("
        ++ renderArgList results c.arguments ++ ") = " ++ v.render ++ "]") ++ postS := by
  obtain ⟨v, preS, postS, hv, hfill, _⟩ :=
    runPlan_ok_call_subst tools text filled results c raw h hmem
  exact ⟨v, preS, postS, hv, hfill⟩

/-- C1, witness: the amended statement instantiated on the notebook example
at the `multiply` call. -/
theorem coa_C1_witness :
    (runPlan sallyTools sallyText = .ok (sallyFilled, sallyResults) ∧
      Segment.call sallyCall2 "[FUNC multiply(y1, 3) = y2]" ∈
        parseSegments (sallyTools.map (·.name)) sallyText) ∧
    ∃ v preS postS, sallyResults.lookup sallyCall2.output_placeholder = some v ∧
      sallyFilled = preS ++ ("[FUNC " ++ sallyCall2.function_name ++ "("
        ++ renderArgList sallyResults sallyCall2.arguments ++ ") = "
        ++ v.render ++ "]") ++ postS :=
  ⟨⟨by decide, by decide⟩,
   coa_C1_markers_retained sallyTools sallyText sallyFilled sallyResults
     sallyCall2 "[FUNC multiply(y1, 3) = y2]" (by decide) (by decide)⟩

/-- C2, counterexample: on the concrete Sally plan the engine does produce
`y1 = 5` and `y2 = 15`, but the rewritten text is the notebook's
marker-retaining form, not the claimed `"Sally has 5 apples... multiplies
by 3, 15 apples."`. -/
theorem coa_C2_counterexample :
    runPlan sallyTools sallyText = .ok (sallyFilled, sallyResults) ∧
    sallyFilled ≠ sallyClaimedFilled := by
  constructor
  · decide
  · decide

/-- C2, amended: for the Sally plan with tools `add` and `multiply`, the
parser extracts exactly the two calls, the graph has node `y1` with no
dependencies and arguments `[3, 2]` and node `y2` with dependency set
`{y1}` and arguments `[y1, 3]`, execution yields `y1 = 5` and `y2 = 15`,
and the rewritten text is the marker-retaining filled form
`"Sally has [FUNC add(3, 2) = 5] apples... multiplies by 3,
[FUNC multiply(5, 3) = 15] apples."`. -/
theorem coa_C2_scenario :
    extractCalls (parseSegments (sallyTools.map (·.name)) sallyText) =
      [sallyCall1, sallyCall2] ∧
    sallyCall1.arguments = [.lit (.int 3), .lit (.int 2)] ∧ deps sallyCall1 = [] ∧
    sallyCall2.arguments = [.ref "y1", .lit (.int 3)] ∧ deps sallyCall2 = ["y1"] ∧
    buildGraph [sallyCall1, sallyCall2] = .ok [sallyCall1, sallyCall2] ∧
    runPlan sallyTools sallyText = .ok (sallyFilled, sallyResults) := by
  refine ⟨by decide, by decide, by decide, by decide, by decide, by decide, by decide⟩

/-- C3: for every call expression that executes successfully, the filled
text retains the bracketed `[FUNC name(args) = ...]` syntax: the output
placeholder position carries the call's computed result, and every argument
token that referenced a dependency renders as that dependency's result
(`[FUNC multiply(y1, 3) = y2]` becomes `[FUNC multiply(5, 3) = 15]`);
markers are not deleted from the filled text. -/
theorem coa_C3_fill_keeps_markers (tools : List Tool)
    (text filled : String) (results : List (String × Value))
    (c : CallExpression) (raw : String)
    (h : runPlan tools text = .ok (filled, results))
    (hmem : Segment.call c raw ∈ parseSegments (tools.map (·.name)) text) :
    ∃ v preS postS, results.lookup c.output_placeholder = some v ∧
      filled = preS ++ ("[FUNC " ++ c.function_name ++ "("
        ++ renderArgList results c.arguments ++ ") = " ++ v.render ++ "]") ++ postS ∧
      ∀ p ∈ deps c, ∃ w, results.lookup p = some w ∧
        renderArgVal results (.ref p) = w.render :=
  runPlan_ok_call_subst tools text filled results c raw h hmem

/-- C3, witness: instantiated on the notebook example at the `multiply`
call, whose `y1` argument renders as `5`. -/
theorem coa_C3_witness :
    (runPlan sallyTools sallyText = .ok (sallyFilled, sallyResults) ∧
      Segment.call sallyCall2 "[FUNC multiply(y1, 3) = y2]" ∈
        parseSegments (sallyTools.map (·.name)) sallyText) ∧
    ∃ v preS postS, sallyResults.lookup sallyCall2.output_placeholder = some v ∧
      sallyFilled = preS ++ ("[FUNC " ++ sallyCall2.function_name ++ "("
        ++ renderArgList sallyResults sallyCall2.arguments ++ ") = "
        ++ v.render ++ "]") ++ postS ∧
      ∀ p ∈ deps sallyCall2, ∃ w, sallyResults.lookup p = some w ∧
        renderArgVal sallyResults (.ref p) = w.render :=
  ⟨⟨by decide, by decide⟩,
   coa_C3_fill_keeps_markers sallyTools sallyText sallyFilled sallyResults
     sallyCall2 "[FUNC multiply(y1, 3) = y2]" (by decide) (by decide)⟩

/-- C4: for every well-formed, acyclic plan (one the Graph Builder accepts),
the Execution Engine never dispatches a node before all of its dependencies
are Done (present in the result mapping at dispatch time, with looked-up
values), at dispatch time every argument has been substituted via the
result mapping, and each placeholder appears in the result mapping at most
once — both in a completed run and in the partial results of a failed
run. -/
theorem coa_C4_dispatch_order (tools : List Tool)
    (calls order : List CallExpression) (h : buildGraph calls = .ok order) :
    DepsChain [] order ∧
    (∀ d ∈ (execTrace tools order []).1,
      (∀ p ∈ deps d.node, p ∈ d.resultsBefore.map Prod.fst ∧
        ∃ w, d.resultsBefore.lookup p = some w) ∧
      d.node.arguments.mapM (resolveArg d.resultsBefore) = some d.resolved_args) ∧
    (∀ res, (execTrace tools order []).2 = .ok res → (res.map Prod.fst).Nodup) ∧
    (∀ err, (execTrace tools order []).2 = .error err →
      (err.prior_results.map Prod.fst).Nodup) := by
  obtain ⟨hnodup, hperm, hchain, _⟩ := buildGraph_ok calls order h
  have hordnodup : (definedIds order).Nodup := by
    unfold definedIds at hnodup ⊢
    exact ((hperm.map (·.output_placeholder)).nodup_iff).mpr hnodup
  have hdisp := execTrace_dispatch_inv tools order [] (by simpa using hchain)
  refine ⟨hchain, ?_, ?_, ?_⟩
  · intro d hd
    obtain ⟨hdeps, hmapM⟩ := hdisp d hd
    exact ⟨fun p hp => ⟨hdeps p hp, lookup_of_mem_keys p _ (hdeps p hp)⟩, hmapM⟩
  · intro res hres
    have := execTrace_ok_keys tools order [] res hres
    simp only [List.map_nil, List.nil_append] at this
    rw [this]
    exact hordnodup
  · intro err herr
    obtain ⟨pre, post, hsplit, hkeys⟩ := execTrace_error_keys tools order [] err herr
    simp only [List.map_nil, List.nil_append] at hkeys
    rw [hkeys]
    rw [hsplit] at hordnodup
    unfold definedIds at hordnodup ⊢
    rw [List.map_append] at hordnodup
    exact (List.nodup_append.mp hordnodup).1

/-- C4, witness: the ordering and uniqueness guarantees instantiated on the
notebook example's two-node graph. -/
theorem coa_C4_witness :
    buildGraph [sallyCall1, sallyCall2] = .ok [sallyCall1, sallyCall2] ∧
    (DepsChain [] [sallyCall1, sallyCall2] ∧
    (∀ d ∈ (execTrace sallyTools [sallyCall1, sallyCall2] []).1,
      (∀ p ∈ deps d.node, p ∈ d.resultsBefore.map Prod.fst ∧
        ∃ w, d.resultsBefore.lookup p = some w) ∧
      d.node.arguments.mapM (resolveArg d.resultsBefore) = some d.resolved_args) ∧
    (∀ res, (execTrace sallyTools [sallyCall1, sallyCall2] []).2 = .ok res →
      (res.map Prod.fst).Nodup) ∧
    (∀ err, (execTrace sallyTools [sallyCall1, sallyCall2] []).2 = .error err →
      (err.prior_results.map Prod.fst).Nodup)) :=
  ⟨by decide,
   coa_C4_dispatch_order sallyTools [sallyCall1, sallyCall2]
     [sallyCall1, sallyCall2] (by decide)⟩

/-- C5: for every plan whose dependency edges contain a cycle (and whose
placeholder definitions are otherwise well formed: no duplicate definition
and no unknown reference, which would be reported first), graph
construction fails fast with a cycle error whose reported placeholders
include every placeholder on the cycle, and no tool is ever invoked (the
dispatch trace is empty). -/
theorem coa_C5_cycle_error (tools : List Tool) (calls : List CallExpression)
    (C : List String)
    (hnodup : (definedIds calls).Nodup)
    (hrefs : ∀ c ∈ calls, ∀ p ∈ deps c, p ∈ definedIds calls)
    (hcyc : CycleSet calls C) :
    ∃ names, execPlan tools calls = ([], .error (.graph (.cycle names))) ∧
      ∀ p ∈ C, p ∈ names := by
  obtain ⟨names, hb, hmem⟩ := buildGraph_cycle calls C hnodup hrefs hcyc
  exact ⟨names, execPlan_graph_error tools calls _ hb, hmem⟩

/-- C5, witness: the two-node cycle `y2 → y3 → y2` is rejected with a cycle
error naming both placeholders, with no dispatch. -/
theorem coa_C5_witness :
    ((definedIds cycCalls).Nodup ∧
      (∀ c ∈ cycCalls, ∀ p ∈ deps c, p ∈ definedIds cycCalls) ∧
      CycleSet cycCalls ["y2", "y3"]) ∧
    ∃ names, execPlan [addTool] cycCalls = ([], .error (.graph (.cycle names))) ∧
      ∀ p ∈ (["y2", "y3"] : List String), p ∈ names :=
  ⟨⟨by decide, by decide, by decide⟩,
   coa_C5_cycle_error [addTool] cycCalls ["y2", "y3"]
     (by decide) (by decide) (by decide)⟩

/-- C6: for every plan containing a call whose argument references a
placeholder with no defining call expression (assuming no duplicate
definition, which would be reported first), graph construction fails with a
reference error naming an offending placeholder, before any tool invocation
occurs (the dispatch trace is empty). -/
theorem coa_C6_unknown_ref_error (tools : List Tool)
    (calls : List CallExpression)
    (hnodup : (definedIds calls).Nodup)
    (h : ∃ c ∈ calls, ∃ p ∈ deps c, p ∉ definedIds calls) :
    ∃ q, execPlan tools calls = ([], .error (.graph (.unknownRef q))) ∧
      q ∉ definedIds calls ∧ ∃ c ∈ calls, q ∈ deps c := by
  obtain ⟨q, hb, hq, hc⟩ := buildGraph_unknownRef calls hnodup h
  exact ⟨q, execPlan_graph_error tools calls _ hb, hq, hc⟩

/-- C6, witness: a call referencing `y5`, which nothing defines, fails with
a reference error naming `y5` and an empty dispatch trace. -/
theorem coa_C6_witness :
    ((definedIds unkCalls).Nodup ∧
      (∃ c ∈ unkCalls, ∃ p ∈ deps c, p ∉ definedIds unkCalls)) ∧
    ∃ q, execPlan [addTool] unkCalls = ([], .error (.graph (.unknownRef q))) ∧
      q ∉ definedIds unkCalls ∧ ∃ c ∈ unkCalls, q ∈ deps c :=
  ⟨⟨by decide, by decide⟩,
   coa_C6_unknown_ref_error [addTool] unkCalls (by decide) (by decide)⟩

/-- C7: for every plan in which two call expressions define the same output
placeholder, graph construction fails fast with a duplicate-placeholder
error naming a placeholder that is defined twice, before any tool is
invoked (the dispatch trace is empty); in particular the run never succeeds
with a silently kept last definition. -/
theorem coa_C7_duplicate_error (tools : List Tool)
    (calls : List CallExpression) (hdup : ¬(definedIds calls).Nodup) :
    ∃ p pre post, execPlan tools calls = ([], .error (.graph (.duplicate p))) ∧
      definedIds calls = pre ++ p :: post ∧ p ∈ post := by
  obtain ⟨p, pre, post, hb, heq, hmem⟩ := buildGraph_duplicate calls hdup
  exact ⟨p, pre, post, execPlan_graph_error tools calls _ hb, heq, hmem⟩

/-- C7, witness: two definitions of `y1` are rejected with a
duplicate-placeholder error and an empty dispatch trace. -/
theorem coa_C7_witness :
    ¬(definedIds dupCalls).Nodup ∧
    ∃ p pre post, execPlan [addTool] dupCalls =
        ([], .error (.graph (.duplicate p))) ∧
      definedIds dupCalls = pre ++ p :: post ∧ p ∈ post :=
  ⟨by decide, coa_C7_duplicate_error [addTool] dupCalls (by decide)⟩

/-- C9: a well-formed bracketed expression whose function name is not in
the supplied tool set does not abort parsing: it is recognized and kept as
inert text, it contributes nothing to the extracted call list (execution
proceeds with the remaining valid expressions), and its text is preserved
verbatim by the rewriter. -/
theorem coa_C9_unknown_function_inert (names known : List String)
    (cs : List Char) (name : String) (args : List Char) (ph : String)
    (rest : List Char) (m : List (String × Value)) (pre post : List Segment)
    (hshape : parseCallShape cs = some (name, args, ph, rest))
    (hname : name ∉ names) :
    parseCallAt names known cs = some (.inert (mkRaw name args ph), rest) ∧
    extractCalls (pre ++ .inert (mkRaw name args ph) :: post) =
      extractCalls (pre ++ post) ∧
    fillText m (pre ++ .inert (mkRaw name args ph) :: post) =
      fillText m pre ++ mkRaw name args ph ++ fillText m post := by
  refine ⟨?_, ?_, ?_⟩
  · unfold parseCallAt
    rw [hshape]
    simp [hname]
  · rw [extractCalls_append, extractCalls_append]
    rfl
  · rw [fillText_decomp]
    rfl

/-- C9, witness: with only `add` available, `[FUNC mystery(4) = y9]` is
kept inert, excluded from the call list, and preserved verbatim through the
rewrite. -/
theorem coa_C9_witness :
    (parseCallShape "[FUNC mystery(4) = y9] Z".data =
        some ("mystery", "4".data, "y9", " Z".data) ∧
      ("mystery" : String) ∉ (["add"] : List String)) ∧
    (parseCallAt ["add"] [] "[FUNC mystery(4) = y9] Z".data =
      some (.inert (mkRaw "mystery" "4".data "y9"), " Z".data) ∧
    extractCalls ([Segment.text "X "] ++
        .inert (mkRaw "mystery" "4".data "y9") :: [Segment.text " Z"]) =
      extractCalls ([Segment.text "X "] ++ [Segment.text " Z"]) ∧
    fillText [] ([Segment.text "X "] ++
        .inert (mkRaw "mystery" "4".data "y9") :: [Segment.text " Z"]) =
      fillText [] [Segment.text "X "] ++ mkRaw "mystery" "4".data "y9"
        ++ fillText [] [Segment.text " Z"]) :=
  ⟨⟨by decide, by decide⟩,
   coa_C9_unknown_function_inert ["add"] [] "[FUNC mystery(4) = y9] Z".data
     "mystery" "4".data "y9" " Z".data [] [Segment.text "X "] [Segment.text " Z"]
     (by decide) (by decide)⟩

/-- C10: for every input text from which the parser extracts zero call
expressions, the pipeline is the identity on the text: the run succeeds
with the input text unchanged, an empty result mapping and an empty
dispatch trace. In particular, re-running the rewriter on already
marker-free text is a no-op. -/
theorem coa_C10_no_calls_identity (tools : List Tool) (text : String)
    (h : extractCalls (parseSegments (tools.map (·.name)) text) = []) :
    runPlanTrace tools text = ([], .ok (text, [])) := by
  have hep : execPlan tools
      (extractCalls (parseSegments (tools.map (·.name)) text)) = ([], .ok []) := by
    rw [h]
    rfl
  have hnc : ∀ c raw, Segment.call c raw ∉ parseSegments (tools.map (·.name)) text :=
    (extractCalls_eq_nil_iff _).mp h
  have hfill : fillText [] (parseSegments (tools.map (·.name)) text) = text := by
    unfold fillText
    rw [fillConcat_no_call _ _ hnc, rawConcat_parseSegments]
  unfold runPlanTrace
  simp only
  rw [hep]
  simp [hfill]

/-- C10, witness: a plan text with no call expressions passes through the
pipeline unchanged, with empty results and empty trace. -/
theorem coa_C10_witness :
    extractCalls (parseSegments (([addTool] : List Tool).map (·.name)) noCallText) = [] ∧
    runPlanTrace [addTool] noCallText = ([], .ok (noCallText, [])) :=
  ⟨by decide, coa_C10_no_calls_identity [addTool] noCallText (by decide)⟩

/-- Small step lemma: a successfully built order whose execution fails
makes the whole graph execution fail with that execution error. -/
theorem execPlan_exec_error (tools : List Tool) (calls order : List CallExpression)
    (tr : List Dispatch) (e : ExecError)
    (hb : buildGraph calls = .ok order)
    (htr : execTrace tools order [] = (tr, .error e)) :
    execPlan tools calls = (tr, .error (.exec e)) := by
  simp [execPlan, hb, htr]

/-- Small step lemma: a failing graph execution is the pipeline's outcome;
no filled text is produced. -/
theorem runPlanTrace_error (tools : List Tool) (text : String)
    (tr : List Dispatch) (e : PlanError)
    (hep : execPlan tools (extractCalls (parseSegments (tools.map (·.name)) text)) =
      (tr, .error e)) :
    runPlanTrace tools text = (tr, .error e) := by
  simp [runPlanTrace, hep]

/-- C8: if the tool invocation of some node fails while every earlier node
of the dependency order succeeded, the run halts: the dispatch trace is
exactly the earlier nodes followed by the failed node (no node after the
failure is ever dispatched), the run is reported failed naming the failed
node's placeholder, function and resolved arguments, the rewritten text is
never produced (the outcome is an error, not a filled text), the results
already computed for the earlier nodes are retained in the failure report,
the failed node's status is Failed and every completed node's status is
Done. -/
theorem coa_C8_failure_halts (tools : List Tool) (text : String)
    (pre post : List CallExpression) (c : CallExpression)
    (res : List (String × Value)) (vals : List Value) (t : Tool) (msg : String)
    (horder : buildGraph (extractCalls (parseSegments (tools.map (·.name)) text)) =
      .ok (pre ++ c :: post))
    (hpre : (execTrace tools pre []).2 = .ok res)
    (hvals : c.arguments.mapM (resolveArg res) = some vals)
    (htool : lookupTool tools c.function_name = some t)
    (hrun : t.run vals = .error msg) :
    runPlanTrace tools text =
      ((execTrace tools pre []).1 ++ [Dispatch.mk c vals res],
        .error (.exec ⟨c.output_placeholder, c.function_name, vals, msg, res⟩)) ∧
    ((execTrace tools pre []).1 ++ [Dispatch.mk c vals res]).map (·.node) =
      pre ++ [c] ∧
    statusAfterFailure ⟨c.output_placeholder, c.function_name, vals, msg, res⟩
      c.output_placeholder = .Failed ∧
    (∀ p ∈ res.map Prod.fst,
      statusAfterFailure ⟨c.output_placeholder, c.function_name, vals, msg, res⟩
        p = .Done) := by
  have htail : execTrace tools (c :: post) res =
      ([Dispatch.mk c vals res],
        .error ⟨c.output_placeholder, c.function_name, vals, msg, res⟩) := by
    simp only [execTrace, hvals, htool, hrun]
  have happ := execTrace_append tools pre (c :: post) [] res hpre
  rw [htail] at happ
  have hep := execPlan_exec_error tools _ (pre ++ c :: post)
    ((execTrace tools pre []).1 ++ [Dispatch.mk c vals res])
    ⟨c.output_placeholder, c.function_name, vals, msg, res⟩ horder (by simpa using happ)
  have hkeys : res.map Prod.fst = definedIds pre := by
    have := execTrace_ok_keys tools pre [] res hpre
    simpa using this
  have hnotpre : c.output_placeholder ∉ res.map Prod.fst := by
    rw [hkeys]
    obtain ⟨hnodup, hperm, _, _⟩ := buildGraph_ok _ _ horder
    have hyes : (definedIds (pre ++ c :: post)).Nodup := by
      unfold definedIds at hnodup ⊢
      exact ((hperm.map (·.output_placeholder)).nodup_iff).mpr hnodup
    unfold definedIds at hyes ⊢
    rw [List.map_append, List.nodup_append] at hyes
    intro hmem
    exact hyes.2.2 hmem (by simp)
  refine ⟨runPlanTrace_error tools text _ _ hep, ?_, ?_, ?_⟩
  · rw [List.map_append, execTrace_ok_nodes tools pre [] res hpre]
    rfl
  · unfold statusAfterFailure
    simp only [hnotpre]
    simp
  · intro p hp
    unfold statusAfterFailure
    simp [hp]

/-- C8, witness: in the three-node plan whose middle node invokes the
always-failing `boom` tool, the run halts after dispatching the first two
nodes, reports the failure of `y2` with function `boom` and argument `3`,
and retains `y1 = 3` in the failure report. -/
theorem coa_C8_witness :
    (buildGraph (extractCalls (parseSegments (failTools.map (·.name)) failText)) =
        .ok ([failCall1] ++ failCall2 :: [failCall3]) ∧
      (execTrace failTools [failCall1] []).2 = .ok [("y1", Value.int 3)] ∧
      failCall2.arguments.mapM (resolveArg [("y1", Value.int 3)]) =
        some [Value.int 3] ∧
      boomTool.run [Value.int 3] = .error "tool exploded") ∧
    runPlanTrace failTools failText =
      ((execTrace failTools [failCall1] []).1 ++
          [Dispatch.mk failCall2 [Value.int 3] [("y1", Value.int 3)]],
        .error (.exec ⟨failCall2.output_placeholder, failCall2.function_name,
          [Value.int 3], "tool exploded", [("y1", Value.int 3)]⟩)) ∧
    ((execTrace failTools [failCall1] []).1 ++
        [Dispatch.mk failCall2 [Value.int 3] [("y1", Value.int 3)]]).map (·.node) =
      [failCall1] ++ [failCall2] ∧
    statusAfterFailure ⟨failCall2.output_placeholder, failCall2.function_name,
      [Value.int 3], "tool exploded", [("y1", Value.int 3)]⟩
      failCall2.output_placeholder = .Failed ∧
    (∀ p ∈ ([("y1", Value.int 3)] : List (String × Value)).map Prod.fst,
      statusAfterFailure ⟨failCall2.output_placeholder, failCall2.function_name,
        [Value.int 3], "tool exploded", [("y1", Value.int 3)]⟩ p = .Done) :=
  ⟨⟨by decide, by decide, by decide, by decide⟩,
   coa_C8_failure_halts failTools failText [failCall1] [failCall3] failCall2
     [("y1", Value.int 3)] [Value.int 3] boomTool "tool exploded"
     (by decide) (by decide) (by decide) (by rfl) (by decide)⟩

end CoA
